import Mathlib

/-!
Verification development for the MWSS relay core (`internal/relay/mwss.go`):
the client-side session pool (`mwssTransporter.Dial`), the server-side
dispatch pipeline (`MWSSServer.mux` / `MWSSServer.Accept`) and the accept-loop
supervisor in `RunLocalMWSSServer`.

The Go code is shallowly embedded: mutable heap objects (`*muxSession`)
become indices into an explicit heap list, Go slices become an explicit
backing array plus a length (so that the aliasing between the slice header
stored in the pool map and the local slice variable inside `Dial` is
modelled faithfully), and the external collaborators (TCP dial, websocket
handshake, smux) are modelled through boolean oracles for their
success/failure plus the documented behaviour of `smux.Session.NumStreams`,
`IsClosed`, `OpenStream` and `Close`.
-/

namespace MWSS

/-- State of one `muxSession`'s smux session: whether the multiplexer has
been closed and how many streams are currently open, plus the session's
configured `maxStreamCnt`.  Session identity (the Go pointer) is the index
into the heap list of `PoolState`. -/
structure SessionData where
  closed : Bool
  numStreams : Nat
  maxStreamCnt : Nat
deriving Repr, DecidableEq

/-- The behaviour of a `muxSession` whose inner smux session is `nil`:
`IsClosed()` is true and `NumStreams()` is 0.  Used as the out-of-range
default for heap lookups; pool invariants keep lookups in range. -/
def nilSession : SessionData := ⟨true, 0, 0⟩

/-- `smux.Session.NumStreams`: returns 0 once the session is closed,
otherwise the number of currently open streams. -/
def smuxNumStreams (s : SessionData) : Nat :=
  if s.closed then 0 else s.numStreams

/-- A Go slice of `*muxSession` as stored in `tr.sessions[addr]`: the
backing array (session ids) together with the slice length.  The capacity
is `backing.length`. -/
structure GoSlice where
  backing : List Nat
  len : Nat
deriving Repr, DecidableEq

/-- The elements actually visible through a slice header. -/
def visible (sl : GoSlice) : List Nat := sl.backing.take sl.len

/-- The whole transporter state: the `sessions` map (association list from
address to slice header) and the heap of all `muxSession` objects ever
created (index = identity). -/
structure PoolState where
  pool : List (String × GoSlice)
  heap : List SessionData
deriving Repr, DecidableEq

/-- Map read `tr.sessions[addr]` (first matching key wins). -/
def lookupPool : List (String × GoSlice) → String → Option GoSlice
  | [], _ => none
  | (k, v) :: rest, a => if k = a then some v else lookupPool rest a

/-- Map write `tr.sessions[addr] = sl` (replace the first matching key,
or insert). -/
def setPool : List (String × GoSlice) → String → GoSlice → List (String × GoSlice)
  | [], a, sl => [(a, sl)]
  | (k, v) :: rest, a, sl =>
    if k = a then (a, sl) :: rest else (k, v) :: setPool rest a sl

/-- Heap read: the `SessionData` behind a session id. -/
def getSess (st : PoolState) (i : Nat) : SessionData :=
  st.heap.getD i nilSession

/-- Result of `mwssTransporter.Dial`: a stream opened on the given session
id, an error, or a nil-pointer panic (`session.GetConn()` with `session`
nil, which is unreachable from reachable pool states). -/
inductive DialRes where
  | ok (sid : Nat) : DialRes
  | errDial : DialRes
  | errOpen : DialRes
  | panic : DialRes
deriving Repr, DecidableEq

/-- Result of the scan loop in `Dial`: the selected session (Go's
`session` variable, `none` for nil) and the `ok` flag. -/
structure ScanRes where
  selected : Option Nat
  ok : Bool
deriving Repr, DecidableEq

/-- The scan loop of `Dial` (lines 95–103): walk the slice; a session with
`NumStreams() >= maxStreamCnt` sets `ok = false` and the walk continues,
otherwise it is selected (`ok = true`) and the walk stops.  `ok0` is the
comma-ok of the preceding map lookup. -/
def scanLoop (heap : List SessionData) : List Nat → Bool → ScanRes
  | [], ok0 => ⟨none, ok0⟩
  | i :: ids, _ =>
    let s := heap.getD i nilSession
    if smuxNumStreams s ≥ s.maxStreamCnt then scanLoop heap ids false
    else ⟨some i, true⟩

/-- Result of the eviction block: the (possibly mutated) backing array,
the local slice length, and the `ok` flag. -/
structure EvictRes where
  backing : List Nat
  len : Nat
  ok : Bool
deriving Repr, DecidableEq

/-- The search loop `for idx, s := range sessions { if s == session { closedIdx = idx; break } }`
returning `closedIdx` (`none` for the sentinel `-1`). -/
def findClosedIdx (sid : Nat) : List Nat → Option Nat
  | [] => none
  | i :: ids => if i = sid then some 0 else (findClosedIdx sid ids).map (· + 1)

/-- The eviction block of `Dial` (lines 106–120): if the selected session
is closed, set `ok = false`, find its index in the local slice, overwrite
that index with the last visible element (mutating the shared backing
array) and shrink the local slice by one. -/
def evictStage (heap : List SessionData) (backing : List Nat) (len : Nat)
    (selected : Option Nat) (ok : Bool) : EvictRes :=
  match selected with
  | none => ⟨backing, len, ok⟩
  | some sid =>
    if (heap.getD sid nilSession).closed then
      match findClosedIdx sid (backing.take len) with
      | some c => ⟨backing.set c ((backing.take len).getD (len - 1) 0), len - 1, false⟩
      | none => ⟨backing, len, false⟩
    else ⟨backing, len, ok⟩

/-- Go's `append` on a slice of session ids: write in place when there is
spare capacity, otherwise reallocate. -/
def goAppend (backing : List Nat) (len : Nat) (x : Nat) : GoSlice :=
  if len < backing.length then ⟨backing.set len x, len + 1⟩
  else ⟨backing.take len ++ [x], len + 1⟩

/-- Write the local slice header back into the map slot, as the aliasing
of the backing array makes visible on early `return` paths (`present` is
whether `addr` was in the map; absent keys have nothing to alias). -/
def writeBack (st : PoolState) (addr : String) (present : Bool) (sl : GoSlice) : PoolState :=
  if present then ⟨setPool st.pool addr sl, st.heap⟩ else st

/-- The tail of `Dial` (lines 142–148) together with
`muxSession.GetConn` (lines 39–45): attempt `OpenStream` on session `sid`
(it fails when the smux session is closed, or when the `openOk` oracle says
so); on failure `session.Close()` is called and the error returned (the
map slot keeps its old length `storedLen` over the mutated backing array);
on success the stream count grows and `tr.sessions[addr] = sessions` stores
the local header. -/
def finishGetConn (st : PoolState) (addr : String) (present : Bool) (storedLen : Nat)
    (backing : List Nat) (len : Nat) (sid : Nat) (openOk : Bool) : DialRes × PoolState :=
  let s := st.heap.getD sid nilSession
  if s.closed || !openOk then
    let st' : PoolState := ⟨st.pool, st.heap.set sid ⟨true, s.numStreams, s.maxStreamCnt⟩⟩
    (DialRes.errOpen, writeBack st' addr present ⟨backing, storedLen⟩)
  else
    let st' : PoolState := ⟨st.pool, st.heap.set sid ⟨false, s.numStreams + 1, s.maxStreamCnt⟩⟩
    (DialRes.ok sid, ⟨setPool st'.pool addr ⟨backing, len⟩, st'.heap⟩)

/-- The continuation of `Dial` after the scan and eviction block: either
reuse the selected session (Go's `session` variable, still `nil` when
nothing was selected — calling `GetConn` on it then dereferences a nil
pointer), or, when `ok` was cleared, dial a new session and append it, or
fail; finally open the stream. -/
def dialRest (cfg : Nat) (st : PoolState) (addr : String) (dialOk openOk : Bool)
    (present : Bool) (storedLen : Nat) (selected : Option Nat) (ev : EvictRes) :
    DialRes × PoolState :=
  if ev.ok then
    match selected with
    | some sid => finishGetConn st addr present storedLen ev.backing ev.len sid openOk
    | none => (DialRes.panic, writeBack st addr present ⟨ev.backing, storedLen⟩)
  else if dialOk then
    let newId := st.heap.length
    let st' : PoolState := ⟨st.pool, st.heap ++ [⟨false, 0, cfg⟩]⟩
    let ap := goAppend ev.backing ev.len newId
    finishGetConn st' addr present storedLen ap.backing ap.len newId openOk
  else
    (DialRes.errDial, writeBack st addr present ⟨ev.backing, storedLen⟩)

/-- `mwssTransporter.Dial` (lines 87–149).  `cfg` is `MaxMWSSStreamCnt`
(defined outside this file; an arbitrary positive constant), `dialOk` is
the combined outcome of `url.Parse` + `net.DialTimeout` + the websocket
handshake + `smux.Client` in `initSession`, and `openOk` is the outcome of
`smux.Session.OpenStream` on a live session. -/
def dial (cfg : Nat) (st : PoolState) (addr : String) (dialOk openOk : Bool) :
    DialRes × PoolState :=
  let slOpt := lookupPool st.pool addr
  let present := slOpt.isSome
  let sl := slOpt.getD ⟨[], 0⟩
  let sc := scanLoop st.heap (visible sl) present
  let ev := evictStage st.heap sl.backing sl.len sc.selected sc.ok
  dialRest cfg st addr dialOk openOk present sl.len sc.selected ev

/-- External event: the multiplexer of session `sid` reports closed
(peer closed, keepalive timeout, …). -/
def closeSession (st : PoolState) (sid : Nat) : PoolState :=
  ⟨st.pool, st.heap.set sid ⟨true, (getSess st sid).numStreams, (getSess st sid).maxStreamCnt⟩⟩

/-- Length of the collection currently stored in the pool map for `addr`. -/
def storedLenOf (st : PoolState) (addr : String) : Nat :=
  ((lookupPool st.pool addr).getD ⟨[], 0⟩).len

/-- The session `Dial`'s scan loop leaves in its `session` variable for
`addr`'s collection in state `st`. -/
def scanSelectOf (st : PoolState) (addr : String) : Option Nat :=
  (scanLoop st.heap (visible ((lookupPool st.pool addr).getD ⟨[], 0⟩))
    (lookupPool st.pool addr).isSome).selected

/-- Whether a `Dial addr` call on state `st` runs the eviction block
(the scan's selected session is closed). -/
def dialEvicts (st : PoolState) (addr : String) : Bool :=
  match scanSelectOf st addr with
  | some sid => (getSess st sid).closed
  | none => false

/-- Modelled from the spec (§4.1 step 2): the selection the specification
describes, "the first Session that is not closed and whose active-stream
count is below its configured maximum".  Stated only to compare with the
source's `scanLoop`. -/
def specSelect (heap : List SessionData) (ids : List Nat) : Option Nat :=
  ids.find? (fun i =>
    !(heap.getD i nilSession).closed &&
      decide (smuxNumStreams (heap.getD i nilSession) <
        (heap.getD i nilSession).maxStreamCnt))

/-! ### Pool invariants and reachability -/

/-- Well-formedness of one stored slice header: non-empty, length within
capacity, and every id in the backing array points into the heap. -/
def slOkB (heapLen : Nat) (sl : GoSlice) : Bool :=
  decide (1 ≤ sl.len) && decide (sl.len ≤ sl.backing.length) &&
    sl.backing.all (fun i => decide (i < heapLen))

/-- Basic pool invariant: every stored slice is well-formed. -/
def invB (st : PoolState) : Bool :=
  st.pool.all (fun p => slOkB st.heap.length p.2)

/-- No collection stored in the pool map holds two references to the same
session. -/
def nodupB (st : PoolState) : Bool :=
  st.pool.all (fun p => decide (visible p.2).Nodup)

/-- Pool states reachable from the empty transporter through `Dial` calls
(with arbitrary oracle outcomes) and external session closures. -/
inductive Reachable (cfg : Nat) : PoolState → Prop where
  | init : Reachable cfg ⟨[], []⟩
  | dialStep (addr : String) (dialOk openOk : Bool) {st : PoolState} :
      Reachable cfg st → Reachable cfg (dial cfg st addr dialOk openOk).2
  | closeStep (sid : Nat) {st : PoolState} :
      Reachable cfg st → Reachable cfg (closeSession st sid)

/-- Reachability restricted to runs in which no `Dial` call both evicts a
closed session and then fails to dial its replacement. -/
inductive ReachableOK (cfg : Nat) : PoolState → Prop where
  | init : ReachableOK cfg ⟨[], []⟩
  | dialStep (addr : String) (dialOk openOk : Bool) {st : PoolState} :
      ReachableOK cfg st → (dialOk = true ∨ dialEvicts st addr = false) →
      ReachableOK cfg (dial cfg st addr dialOk openOk).2
  | closeStep (sid : Nat) {st : PoolState} :
      ReachableOK cfg st → ReachableOK cfg (closeSession st sid)

/-- `n` sequential `Dial "x"` calls from the empty transporter, every
external step succeeding (the serialization that the pool-wide mutex in
`Dial` — locked on entry, unlocked by `defer` — forces on concurrent
callers). -/
def iterDial (cfg : Nat) : Nat → PoolState
  | 0 => ⟨[], []⟩
  | n + 1 => (dial cfg (iterDial cfg n) "x" true true).2

/-- The heap after `q` sessions have been filled to `cfg` streams and the
latest session carries `r` streams. -/
def heapN (cfg q r : Nat) : List SessionData :=
  List.replicate q ⟨false, cfg, cfg⟩ ++ [⟨false, r, cfg⟩]

/-- Closed form of the pool state after `cfg * q + r` successful dials for
`"x"` from the empty transporter (`1 ≤ r ≤ cfg`): `q` full sessions plus
one carrying `r` streams. -/
def stateN2 (cfg q r : Nat) : PoolState :=
  ⟨[("x", ⟨List.range (q + 1), q + 1⟩)], heapN cfg q r⟩

/-! ### Server side: dispatch pipeline, accept supervisor -/

/-- Capacity of the server's intake queue: `connChan` is created as
`make(chan net.Conn, 1024)`. -/
def connChanCap : Nat := 1024

/-- One iteration of the accept-stream loop in `MWSSServer.mux`
(lines 271–278): the accepted stream is published with a non-blocking
`select`; on a full queue the stream is closed (`cc.Close()`).  Returns
the queue afterwards and whether the stream was closed/dropped. -/
def muxStep (queue : List Nat) (cap : Nat) (stream : Nat) : List Nat × Bool :=
  if queue.length < cap then (queue ++ [stream], false) else (queue, true)

/-- Backoff update in `RunLocalMWSSServer` (lines 214–222): delays in
milliseconds; a zero delay becomes 5 ms, otherwise the delay doubles, and
the result is capped at 1000 ms (1 s). -/
def nextDelay (d : Nat) : Nat :=
  let d' := if d = 0 then 5 else 2 * d
  if d' > 1000 then 1000 else d'

/-- What the accept loop observes on one `s.Accept()` call. -/
inductive AcceptEv where
  | okConn (c : Nat) : AcceptEv
  | tempErr : AcceptEv
  | fatalErr (e : Nat) : AcceptEv
deriving Repr, DecidableEq

/-- `tempDelay` after one loop iteration: reset to 0 on a successful
accept, updated by `nextDelay` on a temporary `net.Error`, unchanged when
the loop returns the error. -/
def loopDelay (d : Nat) : AcceptEv → Nat
  | .okConn _ => 0
  | .tempErr => nextDelay d
  | .fatalErr _ => d

/-- `tempDelay` after `k` consecutive temporary accept errors starting
from the reset value 0. -/
def delayAfter : Nat → Nat
  | 0 => 0
  | k + 1 => loopDelay (delayAfter k) .tempErr

/-- An accept-loop event that does not terminate the loop: a successful
accept or a temporary `net.Error`. -/
def transientEv : AcceptEv → Bool
  | .okConn _ => true
  | .tempErr => true
  | .fatalErr _ => false

/-- The accept loop of `RunLocalMWSSServer` (lines 210–233) run over a
list of observed accept outcomes: a temporary `net.Error` sleeps and
retries, any other error is returned (`some e`); `none` means the loop is
still running after consuming all events. -/
def runLoop : List AcceptEv → Nat → Option Nat
  | [], _ => none
  | .okConn _ :: rest, _ => runLoop rest 0
  | .tempErr :: rest, d => runLoop rest (nextDelay d)
  | .fatalErr e :: _, _ => some e

/-- State of the channels `MWSSServer.Accept` selects over: the buffered
intake queue `connChan`, the one-slot `errChan` buffer, and whether
`errChan` has been closed. -/
structure ServerChans where
  connQ : List Nat
  errBuf : Option Nat
  errClosed : Bool
deriving Repr, DecidableEq

/-- What one `MWSSServer.Accept` call produces. -/
inductive AcceptRes where
  | conn (c : Nat) : AcceptRes
  | err (e : Nat) : AcceptRes
  | nilNil : AcceptRes
  | blocked : AcceptRes
deriving Repr, DecidableEq

/-- `MWSSServer.Accept` (lines 281–287): a two-case `select`.  A case is
ready when its channel has a buffered value, and the `errChan` case is
also always ready once the channel is closed (yielding the zero value, so
both named results stay nil).  When both cases are ready Go picks one at
random; `pickConn` resolves that choice.  With no case ready the call
blocks. -/
def acceptModel (s : ServerChans) (pickConn : Bool) : AcceptRes × ServerChans :=
  let cReady := !s.connQ.isEmpty
  let eReady := s.errBuf.isSome || s.errClosed
  if cReady && (pickConn || !eReady) then
    match s.connQ with
    | c :: rest => (AcceptRes.conn c, { s with connQ := rest })
    | [] => (AcceptRes.blocked, s)
  else if eReady then
    match s.errBuf with
    | some e => (AcceptRes.err e, { s with errBuf := none })
    | none => (AcceptRes.nilNil, s)
  else
    (AcceptRes.blocked, s)

/-! ### Concrete states used as counterexample inputs -/

/-- `cfg = 2`; three successful dials for `"x"` (filling session 0 and
starting session 1), then session 0's multiplexer closes: the collection
is `[closed S0, live-under-capacity S1]`. -/
def exClosedFirst : PoolState :=
  closeSession
    (dial 2 (dial 2 (dial 2 ⟨[], []⟩ "x" true true).2 "x" true true).2 "x" true true).2 0

/-- `cfg = 1`; two successful dials for `"x"`, session 0's multiplexer
closes, then a dial whose TCP/handshake step fails after evicting the
closed session 0. -/
def exDupState : PoolState :=
  (dial 1
    (closeSession (dial 1 (dial 1 ⟨[], []⟩ "x" true true).2 "x" true true).2 0)
    "x" false true).2

/-- `cfg = 1`; one successful dial for `"x"`, then session 0's
multiplexer closes: the collection is the single closed session. -/
def exOneClosed : PoolState :=
  closeSession (dial 1 ⟨[], []⟩ "x" true true).2 0

/-! ## Helper lemmas about the scan loop -/

theorem scanLoop_selected_underCap (heap : List SessionData) :
    ∀ (ids : List Nat) (ok0 : Bool) (sid : Nat),
      (scanLoop heap ids ok0).selected = some sid →
      smuxNumStreams (heap.getD sid nilSession) <
        (heap.getD sid nilSession).maxStreamCnt := by
  intro ids
  induction ids with
  | nil => intro ok0 sid h; simp [scanLoop] at h
  | cons i tl ih =>
    intro ok0 sid h
    simp only [scanLoop] at h
    by_cases hge : smuxNumStreams (heap.getD i nilSession) ≥
        (heap.getD i nilSession).maxStreamCnt
    · rw [if_pos hge] at h
      exact ih false sid h
    · rw [if_neg hge] at h
      obtain rfl : i = sid := by simpa using h
      omega

theorem scanLoop_selected_mem (heap : List SessionData) :
    ∀ (ids : List Nat) (ok0 : Bool) (sid : Nat),
      (scanLoop heap ids ok0).selected = some sid → sid ∈ ids := by
  intro ids
  induction ids with
  | nil => intro ok0 sid h; simp [scanLoop] at h
  | cons i tl ih =>
    intro ok0 sid h
    simp only [scanLoop] at h
    by_cases hge : smuxNumStreams (heap.getD i nilSession) ≥
        (heap.getD i nilSession).maxStreamCnt
    · rw [if_pos hge] at h
      exact List.mem_cons_of_mem i (ih false sid h)
    · rw [if_neg hge] at h
      obtain rfl : i = sid := by simpa using h
      simp

theorem scanLoop_none_ok (heap : List SessionData) :
    ∀ (ids : List Nat) (ok0 : Bool),
      (scanLoop heap ids ok0).selected = none →
      (scanLoop heap ids ok0).ok = (ok0 && ids.isEmpty) := by
  intro ids
  induction ids with
  | nil => intro ok0 _; simp [scanLoop]
  | cons i tl ih =>
    intro ok0 h
    simp only [scanLoop] at h ⊢
    by_cases hge : smuxNumStreams (heap.getD i nilSession) ≥
        (heap.getD i nilSession).maxStreamCnt
    · rw [if_pos hge] at h ⊢
      rw [ih false h]
      simp
    · rw [if_neg hge] at h
      simp at h

theorem scanLoop_eq_find (heap : List SessionData) :
    ∀ (ids : List Nat) (ok0 : Bool),
      (scanLoop heap ids ok0).selected =
        ids.find? (fun i => decide (smuxNumStreams (heap.getD i nilSession) <
          (heap.getD i nilSession).maxStreamCnt)) := by
  intro ids
  induction ids with
  | nil => intro ok0; simp [scanLoop]
  | cons i tl ih =>
    intro ok0
    simp only [scanLoop]
    by_cases hge : smuxNumStreams (heap.getD i nilSession) ≥
        (heap.getD i nilSession).maxStreamCnt
    · rw [if_pos hge, List.find?_cons_of_neg]
      · exact ih false
      · simp only [decide_eq_true_eq]
        omega
    · rw [if_neg hge, List.find?_cons_of_pos]
      simp only [decide_eq_true_eq]
      omega

theorem scanLoop_append_full (heap : List SessionData) (ids rest : List Nat) (ok0 : Bool)
    (h : ∀ i ∈ ids, (heap.getD i nilSession).maxStreamCnt ≤
      smuxNumStreams (heap.getD i nilSession)) :
    scanLoop heap (ids ++ rest) ok0 = scanLoop heap rest (ok0 && ids.isEmpty) := by
  induction ids generalizing ok0 with
  | nil => simp
  | cons i tl ih =>
    simp only [List.cons_append, scanLoop]
    rw [if_pos (h i (by simp))]
    simp only [List.append_eq]
    rw [ih false (fun j hj => h j (by simp [hj]))]
    simp

/-! ## Helper lemmas about lists -/

theorem getD_set_self {α : Type} (d x : α) (l : List α) (i : Nat) (h : i < l.length) :
    (l.set i x).getD i d = x := by
  simp [List.getD_eq_getElem?_getD, List.getElem?_set, h]

theorem set_append_singleton {α : Type} (A : List α) (z x : α) :
    (A ++ [z]).set A.length x = A ++ [x] := by
  induction A with
  | nil => rfl
  | cons a tl ih => simp [ih]

theorem take_set_comm {α : Type} (y : α) :
    ∀ (b : List α) (c m : Nat),
      (b.set c y).take m = if c < m then (b.take m).set c y else b.take m := by
  intro b
  induction b with
  | nil => intro c m; simp
  | cons a tl ih =>
    intro c m
    match c, m with
    | 0, 0 => simp
    | 0, m + 1 => simp
    | c + 1, 0 => simp
    | c + 1, m + 1 =>
      simp only [List.set_cons_succ, List.take_succ_cons, ih tl.length]
      rw [ih c m]
      by_cases h : c < m
      · rw [if_pos h, if_pos (by omega)]
      · rw [if_neg h, if_neg (by omega)]

theorem findClosedIdx_spec (sid : Nat) :
    ∀ (l : List Nat) (c : Nat), findClosedIdx sid l = some c →
      c < l.length ∧ l.getD c 0 = sid := by
  intro l
  induction l with
  | nil => intro c h; simp [findClosedIdx] at h
  | cons i tl ih =>
    intro c h
    simp only [findClosedIdx] at h
    split at h
    · next heq =>
      obtain rfl : c = 0 := by simpa using h.symm
      simpa using heq
    · match hrec : findClosedIdx sid tl with
      | none => rw [hrec] at h; simp at h
      | some c' =>
        rw [hrec] at h
        obtain rfl : c = c' + 1 := by simpa using h.symm
        obtain ⟨h1, h2⟩ := ih c' hrec
        exact ⟨by simpa using h1, by simpa using h2⟩

theorem findClosedIdx_isSome_of_mem (sid : Nat) :
    ∀ (l : List Nat), sid ∈ l → (findClosedIdx sid l).isSome = true := by
  intro l
  induction l with
  | nil => intro h; simp at h
  | cons i tl ih =>
    intro h
    simp only [findClosedIdx]
    split
    · simp
    · next hne =>
      have : sid ∈ tl := by
        rcases List.mem_cons.mp h with h' | h'
        · exact absurd h'.symm hne
        · exact h'
      rcases Option.isSome_iff_exists.mp (ih this) with ⟨c, hc⟩
      simp [hc]

/-! ## C6: intake-queue backpressure -/

/-- C6.  When the intake queue already holds `connChanCap` streams, the
accept-loop iteration in `MWSSServer.mux` performs the non-blocking
`select`, hits `default`, closes the freshly accepted stream
(second component `true`), and leaves the queue — contents and length —
exactly as it was.  The producer is modelled by a total step function, so
it never waits on the queue. -/
theorem mux_full_queue_drops_stream :
    ∀ (q : List Nat) (s : Nat), q.length = connChanCap →
      muxStep q connChanCap s = (q, true) := by
  intro q s h
  simp [muxStep, h]

/-- Witness for `mux_full_queue_drops_stream` at a concrete full queue. -/
theorem mux_full_queue_drops_stream_witness :
    muxStep (List.replicate 1024 0) connChanCap 5 = (List.replicate 1024 0, true) :=
  mux_full_queue_drops_stream (List.replicate 1024 0) 5
    (by rw [List.length_replicate, connChanCap])

/-! ## C7: accept-loop backoff -/

/-- C7.  After `k + 1` consecutive temporary accept errors the loop's
`tempDelay` is exactly `min (5 * 2 ^ k) 1000` milliseconds (base 5 ms
doubling each time, capped at 1 s), hence the delay sequence is
non-decreasing and never exceeds the 1000 ms ceiling, and one successful
accept resets the delay to zero. -/
theorem accept_backoff_sequence :
    (∀ k : Nat, delayAfter (k + 1) = min (5 * 2 ^ k) 1000) ∧
    (∀ k : Nat, delayAfter k ≤ delayAfter (k + 1)) ∧
    (∀ k : Nat, delayAfter k ≤ 1000) ∧
    (∀ (d c : Nat), loopDelay d (AcceptEv.okConn c) = 0) := by
  have hpow : ∀ k : Nat, 0 < 2 ^ k := fun k => Nat.pow_pos (by norm_num)
  have hclosed : ∀ k : Nat, delayAfter (k + 1) = min (5 * 2 ^ k) 1000 := by
    intro k
    induction k with
    | zero => decide
    | succ k ih =>
      have h2 : (2 : Nat) ^ (k + 1) = 2 ^ k * 2 := pow_succ 2 k
      have hk := hpow k
      show loopDelay (delayAfter (k + 1)) .tempErr = _
      rw [ih]
      simp only [loopDelay, nextDelay]
      by_cases hle : 5 * 2 ^ k ≤ 1000
      · rw [min_eq_left hle]
        have h0 : (if 5 * 2 ^ k = 0 then 5 else 2 * (5 * 2 ^ k)) = 2 * (5 * 2 ^ k) :=
          if_neg (by omega)
        rw [h0]
        by_cases hbig : 2 * (5 * 2 ^ k) > 1000
        · rw [if_pos hbig, eq_comm, min_eq_right (by omega)]
        · rw [if_neg hbig, eq_comm, min_eq_left (by omega)]
          omega
      · rw [min_eq_right (by omega)]
        have h0 : (if (1000 : Nat) = 0 then 5 else 2 * 1000) = 2000 := if_neg (by omega)
        rw [h0, if_pos (by omega), eq_comm, min_eq_right (by omega)]
  refine ⟨hclosed, ?_, ?_, fun d c => rfl⟩
  · intro k
    match k with
    | 0 => decide
    | k + 1 =>
      rw [hclosed k, hclosed (k + 1)]
      have h2 : (2 : Nat) ^ (k + 1) = 2 ^ k * 2 := pow_succ 2 k
      have hk := hpow k
      omega
  · intro k
    match k with
    | 0 => decide
    | k + 1 =>
      rw [hclosed k]
      omega

/-! ## C8: fatal accept errors terminate the loop -/

/-- C8.  An accept error that is not a temporary `net.Error` makes
`RunLocalMWSSServer`'s loop return that very error, whatever the current
backoff state and whatever events would have followed; a run consisting
solely of successful accepts and temporary errors never terminates the
loop. -/
theorem accept_fatal_error_terminates :
    (∀ (e : Nat) (rest : List AcceptEv) (d : Nat),
        runLoop (AcceptEv.fatalErr e :: rest) d = some e) ∧
    (∀ (evs : List AcceptEv) (d : Nat),
        (∀ ev ∈ evs, transientEv ev = true) → runLoop evs d = none) := by
  constructor
  · intro e rest d
    rfl
  · intro evs
    induction evs with
    | nil => intro d _; rfl
    | cons ev tl ih =>
      intro d h
      match ev with
      | .okConn c => exact ih 0 (fun x hx => h x (by simp [hx]))
      | .tempErr => exact ih (nextDelay d) (fun x hx => h x (by simp [hx]))
      | .fatalErr e => simpa [transientEv] using h (.fatalErr e) (by simp)

/-- Witness for `accept_fatal_error_terminates` at concrete event lists. -/
theorem accept_fatal_error_terminates_witness :
    runLoop [AcceptEv.fatalErr 7, AcceptEv.okConn 1] 5 = some 7 ∧
    runLoop [AcceptEv.tempErr, AcceptEv.okConn 3, AcceptEv.tempErr] 0 = none :=
  ⟨accept_fatal_error_terminates.1 7 [AcceptEv.okConn 1] 5,
   accept_fatal_error_terminates.2 [AcceptEv.tempErr, AcceptEv.okConn 3, AcceptEv.tempErr] 0
     (by decide)⟩

/-! ## C10: `Accept` after the error channel is closed -/

/-- C10 counterexample.  With the error channel closed and drained but one
connection still buffered in `connChan`, `MWSSServer.Accept` may return
that connection — not the nil/nil pair — so "every subsequent call returns
with both the connection and the error nil" fails. -/
theorem accept_after_close_counterexample :
    (acceptModel ⟨[7], none, true⟩ true).1 = AcceptRes.conn 7 ∧
    AcceptRes.conn 7 ≠ AcceptRes.nilNil := by
  decide

/-- C10 amended.  Once the error channel is closed and its buffered error
consumed, `MWSSServer.Accept` never blocks, and whenever the intake queue
is empty it returns immediately with both results nil (the closed-channel
zero value); a buffered connection may still be returned instead. -/
theorem accept_after_close_never_blocks :
    ∀ (s : ServerChans) (pick : Bool), s.errClosed = true → s.errBuf = none →
      (acceptModel s pick).1 ≠ AcceptRes.blocked ∧
      (s.connQ = [] → (acceptModel s pick).1 = AcceptRes.nilNil) := by
  intro s pick hclosed hbuf
  obtain ⟨q, b, c⟩ := s
  cases hbuf
  cases hclosed
  match q, pick with
  | [], _ => exact ⟨by simp [acceptModel], fun _ => by simp [acceptModel]⟩
  | x :: rest, true => exact ⟨by simp [acceptModel], fun h => by simp at h⟩
  | x :: rest, false => exact ⟨by simp [acceptModel], fun h => by simp at h⟩

/-- Witness for `accept_after_close_never_blocks` with an empty queue. -/
theorem accept_after_close_never_blocks_witness :
    (acceptModel ⟨[], none, true⟩ false).1 ≠ AcceptRes.blocked ∧
    (acceptModel ⟨[], none, true⟩ false).1 = AcceptRes.nilNil :=
  ⟨(accept_after_close_never_blocks ⟨[], none, true⟩ false rfl rfl).1,
   (accept_after_close_never_blocks ⟨[], none, true⟩ false rfl rfl).2 rfl⟩

/-! ## Facts about `finishGetConn` and `writeBack` -/

theorem writeBack_heap (st : PoolState) (addr : String) (p : Bool) (sl : GoSlice) :
    (writeBack st addr p sl).heap = st.heap := by
  cases p <;> rfl

theorem finishGetConn_fst_openFail (st : PoolState) (addr : String) (p : Bool)
    (storedLen : Nat) (backing : List Nat) (len sid : Nat) :
    (finishGetConn st addr p storedLen backing len sid false).1 = DialRes.errOpen := by
  simp [finishGetConn]

theorem writeBack_true (st : PoolState) (addr : String) (sl : GoSlice) :
    writeBack st addr true sl = ⟨setPool st.pool addr sl, st.heap⟩ := rfl

theorem writeBack_false (st : PoolState) (addr : String) (sl : GoSlice) :
    writeBack st addr false sl = st := rfl

/-! ## Case-analysis lemmas for `dial` -/

theorem dial_eq_none (cfg : Nat) (st : PoolState) (addr : String) (dOk oOk : Bool)
    (hlook : lookupPool st.pool addr = none) :
    dial cfg st addr dOk oOk =
      dialRest cfg st addr dOk oOk false 0 none ⟨[], 0, false⟩ := by
  unfold dial
  rw [hlook]
  rfl

theorem dial_eq_some (cfg : Nat) (st : PoolState) (addr : String) (dOk oOk : Bool)
    (b : List Nat) (n : Nat) (hlook : lookupPool st.pool addr = some ⟨b, n⟩) :
    dial cfg st addr dOk oOk =
      dialRest cfg st addr dOk oOk true n
        (scanLoop st.heap (b.take n) true).selected
        (evictStage st.heap b n (scanLoop st.heap (b.take n) true).selected
          (scanLoop st.heap (b.take n) true).ok) := by
  unfold dial
  rw [hlook]
  rfl

theorem evictStage_none (heap : List SessionData) (b : List Nat) (n : Nat) (ok : Bool) :
    evictStage heap b n none ok = ⟨b, n, ok⟩ := rfl

theorem evictStage_live (heap : List SessionData) (b : List Nat) (n : Nat) (sid : Nat)
    (ok : Bool) (hcl : (heap.getD sid nilSession).closed = false) :
    evictStage heap b n (some sid) ok = ⟨b, n, ok⟩ := by
  simp only [evictStage, hcl, Bool.false_eq_true, if_false]

theorem evictStage_closedSel (heap : List SessionData) (b : List Nat) (n : Nat)
    (sid c : Nat) (ok : Bool) (hcl : (heap.getD sid nilSession).closed = true)
    (ho : findClosedIdx sid (b.take n) = some c) :
    evictStage heap b n (some sid) ok =
      ⟨b.set c ((b.take n).getD (n - 1) 0), n - 1, false⟩ := by
  simp only [evictStage, hcl, eq_self_iff_true, if_true, ho]

theorem dialRest_selected (cfg : Nat) (st : PoolState) (addr : String) (dOk oOk : Bool)
    (present : Bool) (storedLen : Nat) (sid : Nat) (b : List Nat) (n : Nat) :
    dialRest cfg st addr dOk oOk present storedLen (some sid) ⟨b, n, true⟩ =
      finishGetConn st addr present storedLen b n sid oOk := rfl

theorem dialRest_create (cfg : Nat) (st : PoolState) (addr : String) (oOk : Bool)
    (present : Bool) (storedLen : Nat) (sel : Option Nat) (b : List Nat) (n : Nat) :
    dialRest cfg st addr true oOk present storedLen sel ⟨b, n, false⟩ =
      finishGetConn ⟨st.pool, st.heap ++ [⟨false, 0, cfg⟩]⟩ addr present storedLen
        (goAppend b n st.heap.length).backing (goAppend b n st.heap.length).len
        st.heap.length oOk := rfl

theorem dialRest_dialFail (cfg : Nat) (st : PoolState) (addr : String) (oOk : Bool)
    (present : Bool) (storedLen : Nat) (sel : Option Nat) (b : List Nat) (n : Nat) :
    dialRest cfg st addr false oOk present storedLen sel ⟨b, n, false⟩ =
      (DialRes.errDial, writeBack st addr present ⟨b, storedLen⟩) := rfl

theorem dialRest_openFail_ne_ok (cfg : Nat) (st : PoolState) (addr : String)
    (dOk : Bool) (present : Bool) (storedLen : Nat) (sel : Option Nat) (ev : EvictRes)
    (sid : Nat) :
    (dialRest cfg st addr dOk false present storedLen sel ev).1 ≠ DialRes.ok sid := by
  simp only [dialRest]
  split
  · split
    · rw [finishGetConn_fst_openFail]
      simp
    · simp
  · split
    · rw [finishGetConn_fst_openFail]
      simp
    · simp

/-! ## C3: capacity respect and the maxStreamCount = 2 scenario -/

/-- C3.  The scan loop never selects a session whose stream count (as the
multiplexer reports it) has reached its `maxStreamCnt`; concretely, with
`maxStreamCnt = 2`, three sequential successful `Dial "x"` calls from the
empty pool draw streams from session 0 twice (its count becoming 1 then 2)
and the third call creates session 1 with count 1, the collection then
holding the two sessions. -/
theorem pool_scan_capacity_and_scenario :
    (∀ (heap : List SessionData) (ids : List Nat) (ok0 : Bool) (sid : Nat),
        (scanLoop heap ids ok0).selected = some sid →
        smuxNumStreams (heap.getD sid nilSession) <
          (heap.getD sid nilSession).maxStreamCnt) ∧
    ((dial 2 ⟨[], []⟩ "x" true true).1 = DialRes.ok 0 ∧
      (getSess (dial 2 ⟨[], []⟩ "x" true true).2 0).numStreams = 1 ∧
      (dial 2 (dial 2 ⟨[], []⟩ "x" true true).2 "x" true true).1 = DialRes.ok 0 ∧
      (getSess (dial 2 (dial 2 ⟨[], []⟩ "x" true true).2 "x" true true).2 0).numStreams = 2 ∧
      (dial 2 (dial 2 (dial 2 ⟨[], []⟩ "x" true true).2 "x" true true).2 "x" true true).1 =
        DialRes.ok 1 ∧
      (getSess (dial 2 (dial 2 (dial 2 ⟨[], []⟩ "x" true true).2 "x" true true).2
        "x" true true).2 1).numStreams = 1 ∧
      storedLenOf (dial 2 (dial 2 (dial 2 ⟨[], []⟩ "x" true true).2 "x" true true).2
        "x" true true).2 "x" = 2) :=
  ⟨scanLoop_selected_underCap, by decide⟩

/-- Witness for `pool_scan_capacity_and_scenario` at a concrete scan. -/
theorem pool_scan_capacity_and_scenario_witness :
    smuxNumStreams (([⟨false, 1, 2⟩] : List SessionData).getD 0 nilSession) <
      (([⟨false, 1, 2⟩] : List SessionData).getD 0 nilSession).maxStreamCnt :=
  pool_scan_capacity_and_scenario.1 [⟨false, 1, 2⟩] [0] true 0 (by decide)

/-! ## C5: a failed stream-open closes the session and fails `Dial` -/

/-- C5.  If `GetConn`/`OpenStream` on the chosen or newly created session
fails, `Dial` closes that session (`session.Close()`) and returns the
error; in particular no `Dial` call whose stream-open step fails ever
returns a stream. -/
theorem open_failure_closes_session :
    (∀ (st : PoolState) (addr : String) (present : Bool) (storedLen : Nat)
        (backing : List Nat) (len sid : Nat),
        sid < st.heap.length →
        (finishGetConn st addr present storedLen backing len sid false).1 =
          DialRes.errOpen ∧
        (getSess (finishGetConn st addr present storedLen backing len sid false).2
          sid).closed = true) ∧
    (∀ (cfg : Nat) (st : PoolState) (addr : String) (dialOk : Bool) (sid : Nat),
        (dial cfg st addr dialOk false).1 ≠ DialRes.ok sid) := by
  constructor
  · intro st addr present storedLen backing len sid hlt
    refine ⟨finishGetConn_fst_openFail _ _ _ _ _ _ _, ?_⟩
    have h1 : (finishGetConn st addr present storedLen backing len sid false).2 =
        writeBack ⟨st.pool, st.heap.set sid ⟨true,
          (st.heap.getD sid nilSession).numStreams,
          (st.heap.getD sid nilSession).maxStreamCnt⟩⟩ addr present
          ⟨backing, storedLen⟩ := by
      simp [finishGetConn]
    rw [h1, getSess, writeBack_heap, getD_set_self _ _ _ _ hlt]
  · intro cfg st addr dOk sid
    exact dialRest_openFail_ne_ok cfg st addr dOk _ _ _ _ sid

/-- Witness for `open_failure_closes_session` at a concrete session. -/
theorem open_failure_closes_session_witness :
    (finishGetConn ⟨[], [⟨false, 0, 1⟩]⟩ "x" false 0 [] 0 0 false).1 =
      DialRes.errOpen ∧
    (getSess (finishGetConn ⟨[], [⟨false, 0, 1⟩]⟩ "x" false 0 [] 0 0 false).2
      0).closed = true :=
  open_failure_closes_session.1 ⟨[], [⟨false, 0, 1⟩]⟩ "x" false 0 [] 0 0 (by decide)

/-! ## C1: what the scan actually selects -/

/-- C1 counterexample.  In the reachable state `exClosedFirst` (collection
`[closed session 0, live under-capacity session 1]`) the scan selects the
closed session 0, not session 1, which is the first session that is both
not closed and under capacity; the subsequent `Dial` opens its stream from
a freshly created session 2 rather than from session 1. -/
theorem scan_selects_closed_counterexample :
    Reachable 2 exClosedFirst ∧
    scanSelectOf exClosedFirst "x" = some 0 ∧
    (getSess exClosedFirst 0).closed = true ∧
    specSelect exClosedFirst.heap
      (visible ((lookupPool exClosedFirst.pool "x").getD ⟨[], 0⟩)) = some 1 ∧
    (dial 2 exClosedFirst "x" true true).1 = DialRes.ok 2 :=
  ⟨Reachable.closeStep 0 (.dialStep "x" true true (.dialStep "x" true true
      (.dialStep "x" true true .init))),
   by decide, by decide, by decide, by decide⟩

/-! ## C2: duplicate references in the stored collection -/

/-- C2 counterexample.  The reachable state `exDupState` — reached by two
successful dials, an external close of session 0, and a dial whose
TCP/handshake step fails after evicting session 0 — stores the collection
`[1, 1]` for `"x"`: the swap-remove eviction mutated the backing array
shared with the map entry, the early error return skipped the map store,
and the stored header still counts two elements. -/
theorem pool_duplicate_reference_counterexample :
    Reachable 1 exDupState ∧
    visible ((lookupPool exDupState.pool "x").getD ⟨[], 0⟩) = [1, 1] ∧
    ¬ (visible ((lookupPool exDupState.pool "x").getD ⟨[], 0⟩)).Nodup :=
  ⟨.dialStep "x" false true (.closeStep 0 (.dialStep "x" true true
      (.dialStep "x" true true .init))),
   by decide, by decide⟩

/-! ## Invariant infrastructure -/

theorem scanLoop_some_ok (heap : List SessionData) :
    ∀ (ids : List Nat) (ok0 : Bool) (sid : Nat),
      (scanLoop heap ids ok0).selected = some sid →
      (scanLoop heap ids ok0).ok = true := by
  intro ids
  induction ids with
  | nil => intro ok0 sid h; simp [scanLoop] at h
  | cons i tl ih =>
    intro ok0 sid h
    simp only [scanLoop] at h ⊢
    by_cases hge : smuxNumStreams (heap.getD i nilSession) ≥
        (heap.getD i nilSession).maxStreamCnt
    · rw [if_pos hge] at h ⊢
      exact ih false sid h
    · rw [if_neg hge]

theorem lookupPool_mem :
    ∀ (p : List (String × GoSlice)) (a : String) (sl : GoSlice),
      lookupPool p a = some sl → (a, sl) ∈ p := by
  intro p
  induction p with
  | nil => intro a sl h; simp [lookupPool] at h
  | cons kv tl ih =>
    intro a sl h
    obtain ⟨k, v⟩ := kv
    simp only [lookupPool] at h
    by_cases hk : k = a
    · rw [if_pos hk] at h
      obtain rfl : v = sl := by simpa using h
      subst hk
      simp
    · rw [if_neg hk] at h
      exact List.mem_cons_of_mem _ (ih a sl h)

theorem lookupPool_setPool_self :
    ∀ (p : List (String × GoSlice)) (a : String) (sl : GoSlice),
      lookupPool (setPool p a sl) a = some sl := by
  intro p
  induction p with
  | nil => intro a sl; simp [setPool, lookupPool]
  | cons kv tl ih =>
    intro a sl
    obtain ⟨k, v⟩ := kv
    simp only [setPool]
    by_cases hk : k = a
    · rw [if_pos hk]
      simp [lookupPool]
    · rw [if_neg hk]
      simp only [lookupPool]
      rw [if_neg hk]
      exact ih a sl

theorem all_setPool (p : List (String × GoSlice)) (a : String) (sl : GoSlice)
    (P : String × GoSlice → Bool) (hp : p.all P = true) (hsl : P (a, sl) = true) :
    (setPool p a sl).all P = true := by
  induction p with
  | nil => simpa [setPool] using hsl
  | cons kv tl ih =>
    obtain ⟨k, v⟩ := kv
    simp only [setPool]
    rw [List.all_cons, Bool.and_eq_true] at hp
    by_cases hk : k = a
    · rw [if_pos hk]
      simp only [List.all_cons, Bool.and_eq_true]
      exact ⟨hsl, hp.2⟩
    · rw [if_neg hk]
      simp only [List.all_cons, Bool.and_eq_true]
      exact ⟨hp.1, ih hp.2⟩

theorem slOkB_iff (hl : Nat) (sl : GoSlice) :
    slOkB hl sl = true ↔
      1 ≤ sl.len ∧ sl.len ≤ sl.backing.length ∧ ∀ i ∈ sl.backing, i < hl := by
  simp [slOkB, List.all_eq_true, and_assoc]

theorem slOkB_mk (hl : Nat) (b : List Nat) (n : Nat) :
    slOkB hl ⟨b, n⟩ = true ↔ 1 ≤ n ∧ n ≤ b.length ∧ ∀ i ∈ b, i < hl := by
  simp [slOkB, List.all_eq_true, and_assoc]

theorem slOkB_mono {h1 h2 : Nat} (hle : h1 ≤ h2) {sl : GoSlice}
    (hs : slOkB h1 sl = true) : slOkB h2 sl = true := by
  rw [slOkB_iff] at hs ⊢
  exact ⟨hs.1, hs.2.1, fun i hi => lt_of_lt_of_le (hs.2.2 i hi) hle⟩

theorem invB_lookup {st : PoolState} {a : String} {sl : GoSlice}
    (hinv : invB st = true) (h : lookupPool st.pool a = some sl) :
    slOkB st.heap.length sl = true := by
  unfold invB at hinv
  rw [List.all_eq_true] at hinv
  exact hinv (a, sl) (lookupPool_mem st.pool a sl h)

theorem invB_pool_heap (p : List (String × GoSlice)) (h h' : List SessionData)
    (hl : h'.length = h.length) (hp : invB ⟨p, h⟩ = true) : invB ⟨p, h'⟩ = true := by
  unfold invB at hp ⊢
  simpa [hl] using hp

theorem invB_store (p : List (String × GoSlice)) (h : List SessionData) (a : String)
    (sl : GoSlice) (hp : invB ⟨p, h⟩ = true) (hsl : slOkB h.length sl = true) :
    invB ⟨setPool p a sl, h⟩ = true :=
  all_setPool p a sl _ hp hsl

theorem invB_heap_grow (p : List (String × GoSlice)) (h l : List SessionData)
    (hp : invB ⟨p, h⟩ = true) : invB ⟨p, h ++ l⟩ = true := by
  unfold invB at hp ⊢
  rw [List.all_eq_true] at hp ⊢
  intro x hx
  exact slOkB_mono (by simp) (hp x hx)

theorem length_visible {sl : GoSlice} (h : sl.len ≤ sl.backing.length) :
    (visible sl).length = sl.len := by
  simp only [visible, List.length_take]
  exact Nat.min_eq_left h

theorem getD_mem {l : List Nat} {i : Nat} (h : i < l.length) : l.getD i 0 ∈ l := by
  rw [List.getD_eq_getElem?_getD, List.getElem?_eq_getElem h]
  exact List.getElem_mem h

theorem goAppend_facts (b : List Nat) (l x : Nat) (hl : l ≤ b.length) :
    (goAppend b l x).len = l + 1 ∧
    l + 1 ≤ (goAppend b l x).backing.length ∧
    (∀ i ∈ (goAppend b l x).backing, i ∈ b ∨ i = x) := by
  unfold goAppend
  split
  · next hlt =>
    refine ⟨rfl, by simpa using hlt, ?_⟩
    intro i hi
    exact List.mem_or_eq_of_mem_set hi
  · refine ⟨rfl, ?_, ?_⟩
    · simp only [GoSlice.mk.injEq, List.length_append, List.length_take,
        List.length_cons, List.length_nil]
      omega
    · intro i hi
      rcases List.mem_append.mp hi with h | h
      · exact Or.inl (List.mem_of_mem_take h)
      · exact Or.inr (by simpa using h)

theorem invB_finishGetConn (st : PoolState) (addr : String) (present : Bool)
    (storedLen : Nat) (backing : List Nat) (len sid : Nat) (oOk : Bool)
    (hinv : invB st = true)
    (h2 : present = true → slOkB st.heap.length ⟨backing, storedLen⟩ = true)
    (h3 : slOkB st.heap.length ⟨backing, len⟩ = true) :
    invB (finishGetConn st addr present storedLen backing len sid oOk).2 = true := by
  obtain ⟨p, h⟩ := st
  have hbase : ∀ s' : SessionData, invB ⟨p, h.set sid s'⟩ = true :=
    fun s' => invB_pool_heap p h (h.set sid s') (List.length_set h sid s') hinv
  simp only [finishGetConn]
  split
  · -- OpenStream failed: close the session, write back the stored header
    simp only [writeBack]
    cases present with
    | false => simpa using hbase _
    | true =>
      simp only [if_true]
      exact invB_store p (h.set sid _) addr ⟨backing, storedLen⟩ (hbase _)
        (by rw [List.length_set]; exact h2 rfl)
  · -- stream opened: bump the count, store the local header
    exact invB_store p (h.set sid _) addr ⟨backing, len⟩ (hbase _)
      (by rw [List.length_set]; exact h3)

theorem invB_dial (cfg : Nat) (st : PoolState) (addr : String) (dOk oOk : Bool)
    (hinv : invB st = true) : invB (dial cfg st addr dOk oOk).2 = true := by
  have hinvE : invB ⟨st.pool, st.heap⟩ = true := hinv
  rcases hlook : lookupPool st.pool addr with _ | sl
  · -- address not in the map: scan over the nil slice, then create
    rw [dial_eq_none cfg st addr dOk oOk hlook]
    match dOk with
    | false =>
      rw [dialRest_dialFail, writeBack_false]
      exact hinv
    | true =>
      rw [dialRest_create]
      have hga : goAppend [] 0 st.heap.length = ⟨[st.heap.length], 1⟩ := rfl
      rw [hga]
      apply invB_finishGetConn
      · exact invB_heap_grow st.pool st.heap _ hinvE
      · intro hfalse
        exact absurd hfalse (by decide)
      · dsimp only
        rw [slOkB_mk]
        refine ⟨le_refl 1, by simp, ?_⟩
        intro i hi
        simp only [List.mem_singleton] at hi
        simp only [hi, List.length_append, List.length_cons, List.length_nil]
        omega
  · -- address present
    have hsl := invB_lookup hinv hlook
    obtain ⟨b, n⟩ := sl
    rw [slOkB_mk] at hsl
    obtain ⟨hn1, hn2, hb⟩ := hsl
    have hvlen : (b.take n).length = n := by
      rw [List.length_take]
      omega
    rw [dial_eq_some cfg st addr dOk oOk b n hlook]
    rcases hscan : (scanLoop st.heap (b.take n) true).selected with _ | sid
    · -- nothing selected: the scan's ok flag is false, so a session is created
      have hok : (scanLoop st.heap (b.take n) true).ok = false := by
        rw [scanLoop_none_ok st.heap _ _ hscan]
        have hne : b.take n ≠ [] := by
          intro hE
          rw [hE] at hvlen
          simp at hvlen
          omega
        simp [hne]
      rw [hok, evictStage_none]
      match dOk with
      | false =>
        rw [dialRest_dialFail, writeBack_true]
        exact invB_store st.pool st.heap addr ⟨b, n⟩ hinvE
          (by rw [slOkB_mk]; exact ⟨hn1, hn2, hb⟩)
      | true =>
        rw [dialRest_create]
        obtain ⟨hA, hB, hC⟩ := goAppend_facts b n st.heap.length hn2
        apply invB_finishGetConn
        · exact invB_heap_grow st.pool st.heap _ hinvE
        · intro _
          dsimp only
          rw [slOkB_mk]
          refine ⟨hn1, by omega, ?_⟩
          intro i hi
          rcases hC i hi with hm | hm
          · have := hb i hm
            simp only [List.length_append, List.length_cons, List.length_nil]
            omega
          · subst hm
            simp only [List.length_append, List.length_cons, List.length_nil]
            omega
        · dsimp only
          rw [slOkB_mk, hA]
          refine ⟨by omega, hB, ?_⟩
          intro i hi
          rcases hC i hi with hm | hm
          · have := hb i hm
            simp only [List.length_append, List.length_cons, List.length_nil]
            omega
          · subst hm
            simp only [List.length_append, List.length_cons, List.length_nil]
            omega
    · -- a session was selected
      have hokT : (scanLoop st.heap (b.take n) true).ok = true :=
        scanLoop_some_ok st.heap _ _ _ hscan
      rw [hokT]
      by_cases hcl : (st.heap.getD sid nilSession).closed = true
      · -- the selected session is closed: evict, then create
        have hmem : sid ∈ b.take n := scanLoop_selected_mem st.heap _ _ _ hscan
        have hfs := findClosedIdx_isSome_of_mem sid _ hmem
        rcases ho : findClosedIdx sid (b.take n) with _ | c
        · rw [ho] at hfs; simp at hfs
        obtain ⟨hclt, hcval⟩ := findClosedIdx_spec sid _ c ho
        rw [hvlen] at hclt
        have hylt : n - 1 < (b.take n).length := by omega
        have hymem : (b.take n).getD (n - 1) 0 ∈ b :=
          List.mem_of_mem_take (getD_mem hylt)
        have hsetmem : ∀ i ∈ b.set c ((b.take n).getD (n - 1) 0), i < st.heap.length := by
          intro i hi
          rcases List.mem_or_eq_of_mem_set hi with hm | hm
          · exact hb i hm
          · exact hm ▸ hb _ hymem
        have hsetlen : (b.set c ((b.take n).getD (n - 1) 0)).length = b.length :=
          List.length_set b c _
        rw [evictStage_closedSel st.heap b n sid c true hcl ho]
        match dOk with
        | false =>
          rw [dialRest_dialFail, writeBack_true]
          apply invB_store st.pool st.heap addr _ hinvE
          rw [slOkB_mk]
          exact ⟨hn1, by omega, hsetmem⟩
        | true =>
          rw [dialRest_create]
          obtain ⟨hA, hB, hC⟩ :=
            goAppend_facts (b.set c ((b.take n).getD (n - 1) 0)) (n - 1)
              st.heap.length (by omega)
          apply invB_finishGetConn
          · exact invB_heap_grow st.pool st.heap _ hinvE
          · intro _
            dsimp only
            rw [slOkB_mk]
            refine ⟨hn1, by omega, ?_⟩
            intro i hi
            rcases hC i hi with hm | hm
            · have := hsetmem i hm
              simp only [List.length_append, List.length_cons, List.length_nil]
              omega
            · subst hm
              simp only [List.length_append, List.length_cons, List.length_nil]
              omega
          · dsimp only
            rw [slOkB_mk, hA]
            refine ⟨by omega, hB, ?_⟩
            intro i hi
            rcases hC i hi with hm | hm
            · have := hsetmem i hm
              simp only [List.length_append, List.length_cons, List.length_nil]
              omega
            · subst hm
              simp only [List.length_append, List.length_cons, List.length_nil]
              omega
      · -- the selected session is live: open a stream on it
        rw [evictStage_live st.heap b n sid true (by simpa using hcl),
          dialRest_selected]
        apply invB_finishGetConn _ _ _ _ _ _ _ _ hinv
        · intro _
          rw [slOkB_mk]
          exact ⟨hn1, hn2, hb⟩
        · rw [slOkB_mk]
          exact ⟨hn1, hn2, hb⟩

theorem invB_close (st : PoolState) (sid : Nat) (hinv : invB st = true) :
    invB (closeSession st sid) = true := by
  unfold closeSession
  exact invB_pool_heap st.pool st.heap _ (List.length_set _ _ _) hinv

theorem reachable_invB (cfg : Nat) (st : PoolState) (h : Reachable cfg st) :
    invB st = true := by
  induction h with
  | init => rfl
  | dialStep addr dOk oOk _ ih => exact invB_dial cfg _ addr dOk oOk ih
  | closeStep sid _ ih => exact invB_close _ sid ih

theorem reachableOK_reachable (cfg : Nat) (st : PoolState) (h : ReachableOK cfg st) :
    Reachable cfg st := by
  induction h with
  | init => exact .init
  | dialStep addr dOk oOk _ _ ih => exact .dialStep addr dOk oOk ih
  | closeStep sid _ ih => exact .closeStep sid ih

/-! ## Further `dial` facts -/

theorem dialRest_panic (cfg : Nat) (st : PoolState) (addr : String) (dOk oOk : Bool)
    (present : Bool) (storedLen : Nat) (b : List Nat) (n : Nat) :
    dialRest cfg st addr dOk oOk present storedLen none ⟨b, n, true⟩ =
      (DialRes.panic, writeBack st addr present ⟨b, storedLen⟩) := rfl

theorem finishGetConn_fst_cases (st : PoolState) (addr : String) (p : Bool)
    (storedLen : Nat) (backing : List Nat) (len sid : Nat) (oOk : Bool) :
    (finishGetConn st addr p storedLen backing len sid oOk).1 = DialRes.errOpen ∨
    (finishGetConn st addr p storedLen backing len sid oOk).1 = DialRes.ok sid := by
  simp only [finishGetConn]
  split
  · exact Or.inl rfl
  · exact Or.inr rfl

theorem finishGetConn_heap_len (st : PoolState) (addr : String) (p : Bool)
    (storedLen : Nat) (backing : List Nat) (len sid : Nat) (oOk : Bool) :
    ((finishGetConn st addr p storedLen backing len sid oOk).2).heap.length =
      st.heap.length := by
  simp only [finishGetConn]
  split
  · rw [writeBack_heap]
    dsimp only
    exact List.length_set _ _ _
  · dsimp only
    exact List.length_set _ _ _

theorem storedLenOf_finishGetConn (st : PoolState) (addr : String)
    (storedLen : Nat) (backing : List Nat) (len sid : Nat) (oOk : Bool) :
    storedLenOf (finishGetConn st addr true storedLen backing len sid oOk).2 addr =
        storedLen ∨
    storedLenOf (finishGetConn st addr true storedLen backing len sid oOk).2 addr =
        len := by
  simp only [finishGetConn]
  split
  · left
    rw [writeBack_true]
    unfold storedLenOf
    dsimp only
    rw [lookupPool_setPool_self]
    rfl
  · right
    unfold storedLenOf
    dsimp only
    rw [lookupPool_setPool_self]
    rfl

theorem goAppend_len (b : List Nat) (l x : Nat) : (goAppend b l x).len = l + 1 := by
  unfold goAppend
  split <;> rfl

theorem set_append_at {α : Type} (A : List α) (z x : α) (l : Nat) (hA : A.length = l) :
    (A ++ [z]).set l x = A ++ [x] := by
  subst hA
  exact set_append_singleton A z x

theorem take_goAppend (b : List Nat) (l x : Nat) (hl : l ≤ b.length) :
    (goAppend b l x).backing.take (goAppend b l x).len = b.take l ++ [x] := by
  unfold goAppend
  split
  · next hlt =>
    dsimp only
    rw [take_set_comm x b l (l + 1), if_pos (by omega), List.take_succ,
      List.getElem?_eq_getElem hlt]
    exact set_append_at _ _ _ _ (by rw [List.length_take]; omega)
  · dsimp only
    apply List.take_of_length_le
    simp only [List.length_append, List.length_take, List.length_cons, List.length_nil]
    omega

theorem take_goAppend_old (b : List Nat) (l x : Nat) (hl : l ≤ b.length) :
    (goAppend b l x).backing.take l = b.take l := by
  unfold goAppend
  split
  · dsimp only
    rw [take_set_comm x b l l, if_neg (by omega)]
  · dsimp only
    exact List.take_left' (by rw [List.length_take]; omega)

/-! ## Nodup preservation -/

theorem nodup_set_of_not_mem {y : Nat} :
    ∀ (l : List Nat) (c : Nat), y ∉ l → l.Nodup → (l.set c y).Nodup := by
  intro l
  induction l with
  | nil => intro c _ _; simp
  | cons a tl ih =>
    intro c hy hnd
    rw [List.nodup_cons] at hnd
    match c with
    | 0 =>
      rw [List.set_cons_zero, List.nodup_cons]
      exact ⟨fun hm => hy (List.mem_cons_of_mem a hm), hnd.2⟩
    | c + 1 =>
      rw [List.set_cons_succ, List.nodup_cons]
      constructor
      · intro hm
        rcases List.mem_or_eq_of_mem_set hm with hm' | hm'
        · exact hnd.1 hm'
        · cases hm'
          exact hy (List.mem_cons_self _ _)
      · exact ih c (fun hm => hy (List.mem_cons_of_mem a hm)) hnd.2

theorem getD_not_mem_take {l : List Nat} {n : Nat} (hn : n + 1 = l.length)
    (hnd : l.Nodup) : l.getD n 0 ∉ l.take n := by
  have hlt : n < l.length := by omega
  rw [List.getD_eq_getElem?_getD, List.getElem?_eq_getElem hlt]
  have hdecomp : l.take n ++ [l[n]] = l := by
    have hts := List.take_succ (l := l) (n := n)
    rw [List.getElem?_eq_getElem hlt] at hts
    simp only [Option.toList_some] at hts
    rw [← hts, hn, List.take_length]
  intro hmem
  have hnd' : (l.take n ++ [l[n]]).Nodup := by rw [hdecomp]; exact hnd
  rw [List.nodup_append] at hnd'
  exact hnd'.2.2 hmem (by simp)

theorem nodup_evict (b : List Nat) (n c : Nat) (hc : c < n) (hn : n ≤ b.length)
    (hnd : (b.take n).Nodup) :
    ((b.set c ((b.take n).getD (n - 1) 0)).take (n - 1)).Nodup := by
  have hvl : (b.take n).length = n := by rw [List.length_take]; omega
  have htt : b.take (n - 1) = (b.take n).take (n - 1) := by
    rw [List.take_take]
    congr 1
    omega
  rw [take_set_comm]
  by_cases hcase : c < n - 1
  · rw [if_pos hcase, htt]
    apply nodup_set_of_not_mem
    · exact getD_not_mem_take (by omega) hnd
    · exact (List.take_sublist _ _).nodup hnd
  · rw [if_neg hcase, htt]
    exact (List.take_sublist _ _).nodup hnd

theorem nodupB_lookup {st : PoolState} {a : String} {sl : GoSlice}
    (hnd : nodupB st = true) (h : lookupPool st.pool a = some sl) :
    (visible sl).Nodup := by
  unfold nodupB at hnd
  rw [List.all_eq_true] at hnd
  simpa using hnd (a, sl) (lookupPool_mem st.pool a sl h)

theorem nodupB_store (p : List (String × GoSlice)) (h : List SessionData) (a : String)
    (sl : GoSlice) (hp : nodupB ⟨p, h⟩ = true) (hsl : (visible sl).Nodup) :
    nodupB ⟨setPool p a sl, h⟩ = true :=
  all_setPool p a sl _ hp (by simpa using hsl)

theorem nodupB_close (st : PoolState) (sid : Nat) :
    nodupB (closeSession st sid) = nodupB st := rfl

theorem nodupB_finishGetConn (st : PoolState) (addr : String) (present : Bool)
    (storedLen : Nat) (backing : List Nat) (len sid : Nat) (oOk : Bool)
    (hnd : nodupB st = true)
    (h2 : present = true → (visible ⟨backing, storedLen⟩).Nodup)
    (h3 : (visible ⟨backing, len⟩).Nodup) :
    nodupB (finishGetConn st addr present storedLen backing len sid oOk).2 = true := by
  obtain ⟨p, h⟩ := st
  simp only [finishGetConn]
  split
  · simp only [writeBack]
    cases present with
    | false => simpa using hnd
    | true =>
      simp only [if_true]
      exact nodupB_store p _ addr ⟨backing, storedLen⟩ hnd (h2 rfl)
  · exact nodupB_store p _ addr ⟨backing, len⟩ hnd h3

theorem scanSelectOf_eq {st : PoolState} {addr : String} {b : List Nat} {n : Nat}
    (hlook : lookupPool st.pool addr = some ⟨b, n⟩) :
    scanSelectOf st addr = (scanLoop st.heap (b.take n) true).selected := by
  unfold scanSelectOf
  rw [hlook]
  rfl

theorem nodup_dial (cfg : Nat) (st : PoolState) (addr : String) (dOk oOk : Bool)
    (hinv : invB st = true) (hnd : nodupB st = true)
    (hside : dOk = true ∨ dialEvicts st addr = false) :
    nodupB (dial cfg st addr dOk oOk).2 = true := by
  have hndE : nodupB ⟨st.pool, st.heap⟩ = true := hnd
  rcases hlook : lookupPool st.pool addr with _ | sl
  · rw [dial_eq_none cfg st addr dOk oOk hlook]
    match dOk with
    | false =>
      rw [dialRest_dialFail, writeBack_false]
      exact hnd
    | true =>
      rw [dialRest_create]
      have hga : goAppend [] 0 st.heap.length = ⟨[st.heap.length], 1⟩ := rfl
      rw [hga]
      apply nodupB_finishGetConn
      · exact hndE
      · intro hf
        exact absurd hf (by decide)
      · simp [visible]
  · have hslOk := invB_lookup hinv hlook
    obtain ⟨b, n⟩ := sl
    rw [slOkB_mk] at hslOk
    obtain ⟨hn1, hn2, hb⟩ := hslOk
    have hndV : (b.take n).Nodup := by
      have hv := nodupB_lookup hnd hlook
      simpa [visible] using hv
    have hvlen : (b.take n).length = n := by
      rw [List.length_take]
      omega
    rw [dial_eq_some cfg st addr dOk oOk b n hlook]
    rcases hscan : (scanLoop st.heap (b.take n) true).selected with _ | sid
    · -- nothing selected, so no eviction happened
      have hok : (scanLoop st.heap (b.take n) true).ok = false := by
        rw [scanLoop_none_ok st.heap _ _ hscan]
        have hne : b.take n ≠ [] := by
          intro hE
          rw [hE] at hvlen
          simp at hvlen
          omega
        simp [hne]
      rw [hok, evictStage_none]
      match dOk with
      | false =>
        rw [dialRest_dialFail, writeBack_true]
        exact nodupB_store st.pool st.heap addr ⟨b, n⟩ hndE
          (by simpa [visible] using hndV)
      | true =>
        rw [dialRest_create]
        apply nodupB_finishGetConn
        · exact hndE
        · intro _
          show ((goAppend b n st.heap.length).backing.take n).Nodup
          rw [take_goAppend_old b n st.heap.length hn2]
          exact hndV
        · show ((goAppend b n st.heap.length).backing.take
            (goAppend b n st.heap.length).len).Nodup
          rw [take_goAppend b n st.heap.length hn2, List.nodup_append]
          refine ⟨hndV, by simp, ?_⟩
          intro a ha ha'
          have h1 : a < st.heap.length := hb a (List.mem_of_mem_take ha)
          have h2 : a = st.heap.length := by simpa using ha'
          omega
    · -- a session was selected
      have hokT : (scanLoop st.heap (b.take n) true).ok = true :=
        scanLoop_some_ok st.heap _ _ _ hscan
      rw [hokT]
      by_cases hcl : (st.heap.getD sid nilSession).closed = true
      · -- eviction: the side condition forces the dial to succeed
        have hdOk : dOk = true := by
          rcases hside with hs | hs
          · exact hs
          · exfalso
            unfold dialEvicts at hs
            rw [scanSelectOf_eq hlook, hscan] at hs
            unfold getSess at hs
            simp only at hs
            rw [hcl] at hs
            exact absurd hs (by decide)
        subst hdOk
        have hmem : sid ∈ b.take n := scanLoop_selected_mem st.heap _ _ _ hscan
        have hfs := findClosedIdx_isSome_of_mem sid _ hmem
        rcases ho : findClosedIdx sid (b.take n) with _ | c
        · rw [ho] at hfs; simp at hfs
        obtain ⟨hclt, hcval⟩ := findClosedIdx_spec sid _ c ho
        rw [hvlen] at hclt
        have hndE2 : ((b.set c ((b.take n).getD (n - 1) 0)).take (n - 1)).Nodup :=
          nodup_evict b n c hclt hn2 hndV
        have hsetmem : ∀ i ∈ b.set c ((b.take n).getD (n - 1) 0), i < st.heap.length := by
          intro i hi
          rcases List.mem_or_eq_of_mem_set hi with hm | hm
          · exact hb i hm
          · have hylt : n - 1 < (b.take n).length := by omega
            exact hm ▸ hb _ (List.mem_of_mem_take (getD_mem hylt))
        have hsl' : n - 1 ≤ (b.set c ((b.take n).getD (n - 1) 0)).length := by
          rw [List.length_set]
          omega
        have hfull := take_goAppend (b.set c ((b.take n).getD (n - 1) 0)) (n - 1)
          st.heap.length hsl'
        rw [goAppend_len] at hfull
        have hn1' : n - 1 + 1 = n := by omega
        rw [hn1'] at hfull
        have hfullNodup :
            ((goAppend (b.set c ((b.take n).getD (n - 1) 0)) (n - 1)
              st.heap.length).backing.take n).Nodup := by
          rw [hfull, List.nodup_append]
          refine ⟨hndE2, by simp, ?_⟩
          intro a ha ha'
          have h1 : a < st.heap.length :=
            hsetmem a (List.mem_of_mem_take ha)
          have h2 : a = st.heap.length := by simpa using ha'
          omega
        rw [evictStage_closedSel st.heap b n sid c true hcl ho, dialRest_create]
        apply nodupB_finishGetConn
        · exact hndE
        · intro _
          exact hfullNodup
        · show ((goAppend (b.set c ((b.take n).getD (n - 1) 0)) (n - 1)
            st.heap.length).backing.take
            (goAppend (b.set c ((b.take n).getD (n - 1) 0)) (n - 1)
              st.heap.length).len).Nodup
          rw [goAppend_len, hn1']
          exact hfullNodup
      · -- the selected session is live
        rw [evictStage_live st.heap b n sid true (by simpa using hcl), dialRest_selected]
        apply nodupB_finishGetConn _ _ _ _ _ _ _ _ hnd
        · intro _
          simpa [visible] using hndV
        · simpa [visible] using hndV

theorem finishGetConn_ne_ok (st : PoolState) (addr : String) (p : Bool)
    (storedLen : Nat) (backing : List Nat) (len sid tid : Nat) (oOk : Bool)
    (hne : sid ≠ tid) :
    (finishGetConn st addr p storedLen backing len sid oOk).1 ≠ DialRes.ok tid := by
  rcases finishGetConn_fst_cases st addr p storedLen backing len sid oOk with hc | hc <;>
    rw [hc]
  · simp
  · simp [hne]

theorem finishGetConn_ne_panic (st : PoolState) (addr : String) (p : Bool)
    (storedLen : Nat) (backing : List Nat) (len sid : Nat) (oOk : Bool) :
    (finishGetConn st addr p storedLen backing len sid oOk).1 ≠ DialRes.panic := by
  rcases finishGetConn_fst_cases st addr p storedLen backing len sid oOk with hc | hc <;>
    rw [hc] <;> simp

/-! ## C2: the stored collections under restricted reachability -/

/-- C2 amended.  For every pool state reachable from the empty transporter
through `Dial` calls and external session closures — provided no call both
evicts a closed session and then fails to dial its replacement
(`ReachableOK`) — the collection stored in the pool map for each address
never contains two references to the same Session.  The companion
counterexample shows the unrestricted claim fails precisely on an
evict-then-fail call. -/
theorem pool_no_duplicate_references :
    ∀ (cfg : Nat) (st : PoolState), ReachableOK cfg st →
      ∀ (addr : String) (sl : GoSlice), lookupPool st.pool addr = some sl →
        (visible sl).Nodup := by
  intro cfg st h
  have hmain : invB st = true ∧ nodupB st = true := by
    induction h with
    | init => exact ⟨rfl, rfl⟩
    | dialStep addr dOk oOk _ hside ih =>
      exact ⟨invB_dial _ _ _ _ _ ih.1, nodup_dial _ _ _ _ _ ih.1 ih.2 hside⟩
    | closeStep sid _ ih =>
      exact ⟨invB_close _ _ ih.1, by rw [nodupB_close]; exact ih.2⟩
  intro addr sl hlook
  exact nodupB_lookup hmain.2 hlook

/-- Witness for `pool_no_duplicate_references` at a concrete run. -/
theorem pool_no_duplicate_references_witness :
    (visible ⟨[0], 1⟩).Nodup :=
  pool_no_duplicate_references 1 (dial 1 ⟨[], []⟩ "x" true true).2
    (.dialStep "x" true true .init (Or.inl rfl)) "x" ⟨[0], 1⟩ (by decide)

/-! ## C4: effect of eviction on the collection size -/

/-- C4 counterexample.  In the reachable state `exOneClosed` (a single
closed session for `"x"`, collection size 1) the next successful
`Dial "x"` evicts session 0 but appends the replacement session in the
same call: the stored collection size afterwards is still 1, not the
claimed `1 - 1 = 0`. -/
theorem evicted_size_counterexample :
    Reachable 1 exOneClosed ∧
    (getSess exOneClosed 0).closed = true ∧
    storedLenOf exOneClosed "x" = 1 ∧
    (dial 1 exOneClosed "x" true true).1 = DialRes.ok 1 ∧
    storedLenOf (dial 1 exOneClosed "x" true true).2 "x" = 1 ∧
    storedLenOf (dial 1 exOneClosed "x" true true).2 "x" ≠
      storedLenOf exOneClosed "x" - 1 :=
  ⟨.closeStep 0 (.dialStep "x" true true .init),
   by decide, by decide, by decide, by decide, by decide⟩

/-- C4 amended.  If session `sid` in the collection for `addr` is closed,
the next `Dial addr` neither returns a stream from it nor panics; and when
`sid` is the session the scan selects, the call evicts it but appends its
replacement in the same call, so the stored collection size is unchanged
(on success and failure alike) rather than decreased by one. -/
theorem closed_session_not_served :
    ∀ (cfg : Nat) (st : PoolState) (addr : String) (dOk oOk : Bool) (sid : Nat)
      (b : List Nat) (n : Nat),
      invB st = true → lookupPool st.pool addr = some ⟨b, n⟩ →
      sid ∈ b.take n → (getSess st sid).closed = true →
      (dial cfg st addr dOk oOk).1 ≠ DialRes.ok sid ∧
      (dial cfg st addr dOk oOk).1 ≠ DialRes.panic ∧
      (scanSelectOf st addr = some sid →
        storedLenOf (dial cfg st addr dOk oOk).2 addr = storedLenOf st addr) := by
  intro cfg st addr dOk oOk sid b n hinv hlook hmem hcl
  have hslOk := invB_lookup hinv hlook
  rw [slOkB_mk] at hslOk
  obtain ⟨hn1, hn2, hb⟩ := hslOk
  have hvlen : (b.take n).length = n := by
    rw [List.length_take]
    omega
  have hsidlt : sid < st.heap.length := hb sid (List.mem_of_mem_take hmem)
  have hstlen : storedLenOf st addr = n := by
    unfold storedLenOf
    rw [hlook]
    rfl
  rw [dial_eq_some cfg st addr dOk oOk b n hlook, scanSelectOf_eq hlook]
  rcases hscan : (scanLoop st.heap (b.take n) true).selected with _ | j
  · -- nothing selected
    have hok : (scanLoop st.heap (b.take n) true).ok = false := by
      rw [scanLoop_none_ok st.heap _ _ hscan]
      have hne : b.take n ≠ [] := by
        intro hE
        rw [hE] at hvlen
        simp at hvlen
        omega
      simp [hne]
    rw [hok, evictStage_none]
    match dOk with
    | false =>
      rw [dialRest_dialFail]
      exact ⟨by simp, by simp, fun hss => absurd hss (by simp)⟩
    | true =>
      rw [dialRest_create]
      refine ⟨finishGetConn_ne_ok _ _ _ _ _ _ _ _ _ (by omega),
        finishGetConn_ne_panic _ _ _ _ _ _ _ _,
        fun hss => absurd hss (by simp)⟩
  · -- session j selected
    have hokT : (scanLoop st.heap (b.take n) true).ok = true :=
      scanLoop_some_ok st.heap _ _ _ hscan
    rw [hokT]
    by_cases hclj : (st.heap.getD j nilSession).closed = true
    · -- j is closed: evicted and replaced
      have hmemj : j ∈ b.take n := scanLoop_selected_mem st.heap _ _ _ hscan
      have hfs := findClosedIdx_isSome_of_mem j _ hmemj
      rcases ho : findClosedIdx j (b.take n) with _ | c
      · rw [ho] at hfs; simp at hfs
      rw [evictStage_closedSel st.heap b n j c true hclj ho]
      match dOk with
      | false =>
        rw [dialRest_dialFail]
        refine ⟨by simp, by simp, ?_⟩
        intro _
        show storedLenOf (writeBack st addr true ⟨_, n⟩) addr = storedLenOf st addr
        rw [writeBack_true]
        unfold storedLenOf
        dsimp only
        rw [lookupPool_setPool_self, hlook]
        rfl
      | true =>
        rw [dialRest_create]
        refine ⟨finishGetConn_ne_ok _ _ _ _ _ _ _ _ _ (by omega),
          finishGetConn_ne_panic _ _ _ _ _ _ _ _, ?_⟩
        intro _
        rcases storedLenOf_finishGetConn ⟨st.pool, st.heap ++ [⟨false, 0, cfg⟩]⟩ addr n
            (goAppend (b.set c ((b.take n).getD (n - 1) 0)) (n - 1)
              st.heap.length).backing
            (goAppend (b.set c ((b.take n).getD (n - 1) 0)) (n - 1)
              st.heap.length).len
            st.heap.length oOk with hsd | hsd
        · rw [hsd, hstlen]
        · rw [hsd, goAppend_len, hstlen]
          omega
    · -- j is live: the stream comes from j, and j differs from sid
      have hnej : sid ≠ j := by
        intro hEq
        unfold getSess at hcl
        rw [hEq] at hcl
        exact hclj hcl
      rw [evictStage_live st.heap b n j true (by simpa using hclj), dialRest_selected]
      refine ⟨finishGetConn_ne_ok _ _ _ _ _ _ _ _ _ (fun h => hnej h.symm),
        finishGetConn_ne_panic _ _ _ _ _ _ _ _, ?_⟩
      intro hss
      obtain rfl : j = sid := by simpa using hss
      unfold getSess at hcl
      exact absurd hcl hclj

/-- C1 amended.  The scan selects the first session whose stream count, as
the multiplexer reports it (0 once closed), is below its configured
maximum — closedness is not part of the scan's test, so a closed session
can win over the first live under-capacity one (see the companion
counterexample).  Nevertheless a stream is never opened from a closed or
at-capacity session: a `Dial` that returns a stream drew it either from
the freshly created session (id `st.heap.length`) or from an existing
session that was live and strictly under capacity. -/
theorem scan_first_fit_ignores_closed :
    (∀ (heap : List SessionData) (ids : List Nat) (ok0 : Bool),
        (scanLoop heap ids ok0).selected =
          ids.find? (fun i => decide (smuxNumStreams (heap.getD i nilSession) <
            (heap.getD i nilSession).maxStreamCnt))) ∧
    (∀ (cfg : Nat) (st : PoolState) (addr : String) (dOk oOk : Bool) (sid : Nat),
        invB st = true → (dial cfg st addr dOk oOk).1 = DialRes.ok sid →
        sid = st.heap.length ∨
        (sid < st.heap.length ∧ (getSess st sid).closed = false ∧
          (getSess st sid).numStreams < (getSess st sid).maxStreamCnt)) := by
  refine ⟨scanLoop_eq_find, ?_⟩
  intro cfg st addr dOk oOk sid hinv hres
  rcases hlook : lookupPool st.pool addr with _ | sl
  · rw [dial_eq_none cfg st addr dOk oOk hlook] at hres
    cases dOk
    · rw [dialRest_dialFail] at hres
      simp at hres
    · rw [dialRest_create] at hres
      rcases finishGetConn_fst_cases ⟨st.pool, st.heap ++ [⟨false, 0, cfg⟩]⟩ addr false 0
          (goAppend [] 0 st.heap.length).backing (goAppend [] 0 st.heap.length).len
          st.heap.length oOk with hc | hc
      · rw [hc] at hres
        simp at hres
      · rw [hc] at hres
        left
        exact (by simpa using hres : st.heap.length = sid).symm
  · obtain ⟨b, n⟩ := sl
    have hslOk := invB_lookup hinv hlook
    rw [slOkB_mk] at hslOk
    obtain ⟨hn1, hn2, hb⟩ := hslOk
    have hvlen : (b.take n).length = n := by
      rw [List.length_take]
      omega
    rw [dial_eq_some cfg st addr dOk oOk b n hlook] at hres
    rcases hscan : (scanLoop st.heap (b.take n) true).selected with _ | j
    · have hok : (scanLoop st.heap (b.take n) true).ok = false := by
        rw [scanLoop_none_ok st.heap _ _ hscan]
        have hne : b.take n ≠ [] := by
          intro hE
          rw [hE] at hvlen
          simp at hvlen
          omega
        simp [hne]
      rw [hscan, hok, evictStage_none] at hres
      cases dOk
      · rw [dialRest_dialFail] at hres
        simp at hres
      · rw [dialRest_create] at hres
        rcases finishGetConn_fst_cases ⟨st.pool, st.heap ++ [⟨false, 0, cfg⟩]⟩ addr true n
            (goAppend b n st.heap.length).backing (goAppend b n st.heap.length).len
            st.heap.length oOk with hc | hc
        · rw [hc] at hres
          simp at hres
        · rw [hc] at hres
          left
          exact (by simpa using hres : st.heap.length = sid).symm
    · have hokT := scanLoop_some_ok st.heap _ _ _ hscan
      have hmemj := scanLoop_selected_mem st.heap _ _ _ hscan
      rw [hscan, hokT] at hres
      by_cases hclj : (st.heap.getD j nilSession).closed = true
      · have hfs := findClosedIdx_isSome_of_mem j _ hmemj
        rcases ho : findClosedIdx j (b.take n) with _ | c
        · rw [ho] at hfs; simp at hfs
        rw [evictStage_closedSel st.heap b n j c true hclj ho] at hres
        cases dOk
        · rw [dialRest_dialFail] at hres
          simp at hres
        · rw [dialRest_create] at hres
          rcases finishGetConn_fst_cases ⟨st.pool, st.heap ++ [⟨false, 0, cfg⟩]⟩ addr true n
              (goAppend (b.set c ((b.take n).getD (n - 1) 0)) (n - 1)
                st.heap.length).backing
              (goAppend (b.set c ((b.take n).getD (n - 1) 0)) (n - 1)
                st.heap.length).len
              st.heap.length oOk with hc | hc
          · rw [hc] at hres
            simp at hres
          · rw [hc] at hres
            left
            exact (by simpa using hres : st.heap.length = sid).symm
      · rw [evictStage_live st.heap b n j true (by simpa using hclj),
          dialRest_selected] at hres
        rcases finishGetConn_fst_cases st addr true n b n j oOk with hc | hc
        · rw [hc] at hres
          simp at hres
        · rw [hc] at hres
          obtain rfl : j = sid := by simpa using hres
          right
          have hunder := scanLoop_selected_underCap st.heap (b.take n) true _ hscan
          have hclF : (st.heap.getD j nilSession).closed = false := by
            simpa using hclj
          unfold smuxNumStreams at hunder
          rw [hclF] at hunder
          simp only [Bool.false_eq_true, if_false] at hunder
          exact ⟨hb j (List.mem_of_mem_take hmemj), hclF, hunder⟩

/-- Witness for `scan_first_fit_ignores_closed` at a concrete dial. -/
theorem scan_first_fit_ignores_closed_witness :
    0 = (dial 2 ⟨[], []⟩ "x" true true).2.heap.length ∨
    (0 < (dial 2 ⟨[], []⟩ "x" true true).2.heap.length ∧
      (getSess (dial 2 ⟨[], []⟩ "x" true true).2 0).closed = false ∧
      (getSess (dial 2 ⟨[], []⟩ "x" true true).2 0).numStreams <
        (getSess (dial 2 ⟨[], []⟩ "x" true true).2 0).maxStreamCnt) :=
  scan_first_fit_ignores_closed.2 2 (dial 2 ⟨[], []⟩ "x" true true).2 "x" true true 0
    (by decide) (by decide)

/-- Witness for `closed_session_not_served` at a concrete pool. -/
theorem closed_session_not_served_witness :
    (dial 1 exOneClosed "x" true true).1 ≠ DialRes.ok 0 ∧
    (dial 1 exOneClosed "x" true true).1 ≠ DialRes.panic ∧
    (scanSelectOf exOneClosed "x" = some 0 →
      storedLenOf (dial 1 exOneClosed "x" true true).2 "x" =
        storedLenOf exOneClosed "x") :=
  closed_session_not_served 1 exOneClosed "x" true true 0 [0] 1
    (by decide) (by decide) (by decide) (by decide)

/-! ## C9: serialized session creation -/

theorem heapN_length (cfg q r : Nat) : (heapN cfg q r).length = q + 1 := by
  simp [heapN]

theorem getD_heapN_lt (cfg q r : Nat) {i : Nat} (h : i < q) :
    (heapN cfg q r).getD i nilSession = ⟨false, cfg, cfg⟩ := by
  unfold heapN
  rw [List.getD_eq_getElem?_getD,
    List.getElem?_append_left (by rw [List.length_replicate]; omega),
    List.getElem?_replicate, if_pos h]
  rfl

theorem getD_heapN_self (cfg q r : Nat) :
    (heapN cfg q r).getD q nilSession = ⟨false, r, cfg⟩ := by
  unfold heapN
  rw [List.getD_eq_getElem?_getD,
    List.getElem?_append_right (by rw [List.length_replicate])]
  rw [List.length_replicate, Nat.sub_self]
  rfl

theorem scanLoop_heapN (cfg q r : Nat) :
    scanLoop (heapN cfg q r) (List.range (q + 1)) true =
      if r < cfg then ⟨some q, true⟩ else ⟨none, false⟩ := by
  rw [List.range_succ,
    scanLoop_append_full (heapN cfg q r) (List.range q) [q] true ?full]
  case full =>
    intro i hi
    rw [getD_heapN_lt cfg q r (List.mem_range.mp hi)]
    simp [smuxNumStreams]
  simp only [scanLoop, getD_heapN_self]
  by_cases hr : r < cfg
  · rw [if_neg (by simp [smuxNumStreams]; omega), if_pos hr]
  · rw [if_pos (by simp [smuxNumStreams]; omega), if_neg hr]

theorem heapN_set (cfg q r v : Nat) :
    (heapN cfg q r).set q ⟨false, v, cfg⟩ = heapN cfg q v := by
  unfold heapN
  exact set_append_at _ _ _ _ (List.length_replicate q _)

theorem heapN_grow (cfg q : Nat) :
    heapN cfg q cfg ++ [(⟨false, 1, cfg⟩ : SessionData)] = heapN cfg (q + 1) 1 := by
  unfold heapN
  rw [List.replicate_succ']

theorem dial_empty (cfg : Nat) :
    dial cfg ⟨[], []⟩ "x" true true = (DialRes.ok 0, stateN2 cfg 0 1) := rfl

theorem finishGetConn_live (st : PoolState) (addr : String) (p : Bool)
    (storedLen : Nat) (backing : List Nat) (len sid : Nat)
    (s : SessionData) (hs : st.heap.getD sid nilSession = s) (hcl : s.closed = false) :
    finishGetConn st addr p storedLen backing len sid true =
      (DialRes.ok sid,
        ⟨setPool st.pool addr ⟨backing, len⟩,
          st.heap.set sid ⟨false, s.numStreams + 1, s.maxStreamCnt⟩⟩) := by
  simp only [finishGetConn, hs, hcl, Bool.not_true, Bool.or_false, Bool.false_eq_true,
    if_false]

theorem range_take_self (q : Nat) :
    (List.range (q + 1)).take (q + 1) = List.range (q + 1) := by
  apply List.take_of_length_le
  simp

theorem dial_stateN2_lt (cfg q r : Nat) (hr : r < cfg) :
    dial cfg (stateN2 cfg q r) "x" true true = (DialRes.ok q, stateN2 cfg q (r + 1)) := by
  have hlook : lookupPool (stateN2 cfg q r).pool "x" =
      some ⟨List.range (q + 1), q + 1⟩ := rfl
  have hheap : (stateN2 cfg q r).heap = heapN cfg q r := rfl
  have hpool : (stateN2 cfg q r).pool = [("x", ⟨List.range (q + 1), q + 1⟩)] := rfl
  rw [dial_eq_some cfg _ "x" true true _ _ hlook, hheap, range_take_self,
    scanLoop_heapN, if_pos hr]
  dsimp only
  rw [evictStage_live (heapN cfg q r) (List.range (q + 1)) (q + 1) q true
      (by rw [getD_heapN_self]),
    dialRest_selected,
    finishGetConn_live _ _ _ _ _ _ _ ⟨false, r, cfg⟩
      (by rw [hheap]; exact getD_heapN_self cfg q r) rfl]
  dsimp only
  rw [hheap, hpool, heapN_set]
  rfl

theorem dial_stateN2_eq (cfg q : Nat) :
    dial cfg (stateN2 cfg q cfg) "x" true true =
      (DialRes.ok (q + 1), stateN2 cfg (q + 1) 1) := by
  have hlook : lookupPool (stateN2 cfg q cfg).pool "x" =
      some ⟨List.range (q + 1), q + 1⟩ := rfl
  have hheap : (stateN2 cfg q cfg).heap = heapN cfg q cfg := rfl
  have hpool : (stateN2 cfg q cfg).pool = [("x", ⟨List.range (q + 1), q + 1⟩)] := rfl
  rw [dial_eq_some cfg _ "x" true true _ _ hlook, hheap, range_take_self,
    scanLoop_heapN, if_neg (lt_irrefl cfg)]
  dsimp only
  rw [evictStage_none, dialRest_create, hheap, heapN_length]
  have hga : goAppend (List.range (q + 1)) (q + 1) (q + 1) =
      ⟨List.range (q + 2), q + 2⟩ := by
    unfold goAppend
    rw [if_neg (by simp), List.take_of_length_le (by simp), ← List.range_succ]
  rw [hga]
  have hgd : (heapN cfg q cfg ++ [(⟨false, 0, cfg⟩ : SessionData)]).getD (q + 1)
      nilSession = ⟨false, 0, cfg⟩ := by
    rw [List.getD_eq_getElem?_getD,
      show (q + 1) = (heapN cfg q cfg).length from (heapN_length cfg q cfg).symm,
      List.getElem?_concat_length]
    rfl
  rw [finishGetConn_live _ _ _ _ _ _ _ ⟨false, 0, cfg⟩ hgd rfl]
  dsimp only
  simp only [Nat.zero_add]
  have hset : (heapN cfg q cfg ++ [(⟨false, 0, cfg⟩ : SessionData)]).set (q + 1)
      ⟨false, 1, cfg⟩ = heapN cfg (q + 1) 1 := by
    rw [set_append_at _ _ _ _ (heapN_length cfg q cfg), heapN_grow]
  rw [hset, hpool]
  rfl

theorem iterDial_stateN2 (cfg : Nat) (hcfg : 0 < cfg) :
    ∀ n : Nat, 1 ≤ n → ∃ q r, 1 ≤ r ∧ r ≤ cfg ∧ n = cfg * q + r ∧
      iterDial cfg n = stateN2 cfg q r := by
  intro n
  induction n with
  | zero => intro h; omega
  | succ n ih =>
    intro _
    match n, ih with
    | 0, _ =>
      refine ⟨0, 1, le_refl 1, hcfg, by omega, ?_⟩
      show (dial cfg ⟨[], []⟩ "x" true true).2 = stateN2 cfg 0 1
      rw [dial_empty]
    | n + 1, ih =>
      obtain ⟨q, r, hr1, hrc, hn, hst⟩ := ih (by omega)
      by_cases hr : r < cfg
      · refine ⟨q, r + 1, by omega, by omega, ?_, ?_⟩
        · rw [hn]
          exact (Nat.add_assoc _ _ _).symm ▸ rfl
        · show (dial cfg (iterDial cfg (n + 1)) "x" true true).2 = stateN2 cfg q (r + 1)
          rw [hst, dial_stateN2_lt cfg q r hr]
      · have hreq : r = cfg := by omega
        refine ⟨q + 1, 1, le_refl 1, hcfg, ?_, ?_⟩
        · rw [hn, hreq, Nat.mul_succ]
        · show (dial cfg (iterDial cfg (n + 1)) "x" true true).2 = stateN2 cfg (q + 1) 1
          rw [hst, hreq, dial_stateN2_eq cfg q]

theorem dial_heap_le (cfg : Nat) (st : PoolState) (addr : String) (dOk oOk : Bool) :
    (dial cfg st addr dOk oOk).2.heap.length ≤ st.heap.length + 1 := by
  have hcreate : ∀ (present : Bool) (storedLen : Nat) (sel : Option Nat)
      (b : List Nat) (n : Nat),
      (dialRest cfg st addr dOk oOk present storedLen sel ⟨b, n, false⟩).2.heap.length ≤
        st.heap.length + 1 := by
    intro present storedLen sel b n
    cases dOk
    · rw [dialRest_dialFail]
      dsimp only
      rw [writeBack_heap]
      omega
    · rw [dialRest_create, finishGetConn_heap_len]
      dsimp only
      rw [List.length_append]
      simp
  rcases hlook : lookupPool st.pool addr with _ | sl
  · rw [dial_eq_none cfg st addr dOk oOk hlook]
    exact hcreate false 0 none [] 0
  · obtain ⟨b, n⟩ := sl
    rw [dial_eq_some cfg st addr dOk oOk b n hlook]
    rcases hscan : (scanLoop st.heap (b.take n) true).selected with _ | sid
    · rcases hokv : (scanLoop st.heap (b.take n) true).ok with _ | _
      · rw [evictStage_none]
        exact hcreate true n none b n
      · rw [evictStage_none, dialRest_panic]
        dsimp only
        rw [writeBack_heap]
        omega
    · rw [scanLoop_some_ok st.heap _ _ _ hscan]
      by_cases hcl : (st.heap.getD sid nilSession).closed = true
      · have hmem : sid ∈ b.take n := scanLoop_selected_mem st.heap _ _ _ hscan
        have hfs := findClosedIdx_isSome_of_mem sid _ hmem
        rcases ho : findClosedIdx sid (b.take n) with _ | c
        · rw [ho] at hfs; simp at hfs
        rw [evictStage_closedSel st.heap b n sid c true hcl ho]
        exact hcreate true n (some sid) _ (n - 1)
      · rw [evictStage_live st.heap b n sid true (by simpa using hcl),
          dialRest_selected, finishGetConn_heap_len]
        omega

/-- C9.  `Dial` runs entirely inside the pool-wide mutex (locked on entry,
released by `defer`), so concurrent `Acquire` calls execute as some serial
order of whole `Dial` calls.  In that serial model each call creates at
most one session (the heap grows by at most one), and `n` successful
serialized calls for one fresh address create exactly `⌈n / cfg⌉` sessions
(characterized by `cfg * k < n + cfg` and `n ≤ cfg * k`), all stored in
that address's collection. -/
theorem serialized_session_creation :
    (∀ (cfg : Nat) (st : PoolState) (addr : String) (dOk oOk : Bool),
        (dial cfg st addr dOk oOk).2.heap.length ≤ st.heap.length + 1) ∧
    (∀ (cfg n : Nat), 0 < cfg →
        cfg * (iterDial cfg n).heap.length < n + cfg ∧
        n ≤ cfg * (iterDial cfg n).heap.length ∧
        storedLenOf (iterDial cfg n) "x" = (iterDial cfg n).heap.length) := by
  constructor
  · exact dial_heap_le
  · intro cfg n hcfg
    match n with
    | 0 =>
      refine ⟨by simpa using hcfg, by omega, rfl⟩
    | n + 1 =>
      obtain ⟨q, r, hr1, hrc, hn, hst⟩ := iterDial_stateN2 cfg hcfg (n + 1) (by omega)
      rw [hst]
      have hlen : (stateN2 cfg q r).heap.length = q + 1 := by
        show (heapN cfg q r).length = q + 1
        exact heapN_length cfg q r
      have hsl : storedLenOf (stateN2 cfg q r) "x" = q + 1 := rfl
      rw [hlen, hsl, hn, Nat.mul_succ]
      generalize cfg * q = A
      omega

/-- Witness for `serialized_session_creation` at `cfg = 2`, `n = 3`. -/
theorem serialized_session_creation_witness :
    2 * (iterDial 2 3).heap.length < 3 + 2 ∧
    3 ≤ 2 * (iterDial 2 3).heap.length ∧
    storedLenOf (iterDial 2 3) "x" = (iterDial 2 3).heap.length :=
  serialized_session_creation.2 2 3 (by decide)

end MWSS
